import Mathlib

/-!
Verification of the byte-buffer view library (`bytes.rs`, `bytes_iter.rs`,
`util.rs`) against its natural-language specification.

Modelling conventions:
* `u8` values are `Nat`s; the invariant `x < 256` is carried as a hypothesis
  where the arithmetic needs it.  Wrapping operations take an explicit `% 256`.
* The mutable slice `&mut [u8]` becomes a `List Nat` field; in-place mutation
  becomes a function returning the updated structure.
* The iterators `iter()` / `iter_mut()` traverse the buffer in *logical*
  order: physical order when the `interpret_reverse_endian` flag is `false`,
  reversed when it is `true`.  A full pass that rewrites every visited byte is
  modelled as surgery on the logical sequence (`setLogical`).
* Rust's `slice::rotate_left/rotate_right` panic when the rotation count
  exceeds the slice length; a panic is modelled as `none`.
-/

namespace Rebite

namespace util

/-- Model of `util::reverse_bit_endianness`: the multiply/mask/modulo identity
from Bit Twiddling Hacks.  The `u64` widening never overflows
(`255 * 0x0202020202 < 2^64`), so plain `Nat` arithmetic is faithful; the
final `as u8` truncation is the `% 256`. -/
def reverse_bit_endianness (byte : Nat) : Nat :=
  (byte * 0x0202020202 &&& 0x010884422010) % 1023 % 256

/-- Model of `util::swap_bytes`: the in-place XOR swap, returning the pair of
updated values `(a, b)`.  The two references are distinct buffer slots, so no
aliasing case arises. -/
def swap_bytes (a b : Nat) : Nat × Nat :=
  let a1 := a ^^^ b
  let b1 := b ^^^ a1
  let a2 := a1 ^^^ b1
  (a2, b1)

/-- Model of `util::set_bytes`: overwrite every byte with `value`. -/
def set_bytes (bytes : List Nat) (value : Nat) : List Nat :=
  bytes.map (fun _ => value)

end util

/-- Model of `ByteString<'a>`: the borrowed buffer plus the endianness flag. -/
structure ByteString where
  bytes : List Nat
  interpret_reverse_endian : Bool
deriving DecidableEq, Repr

namespace ByteString

/-- Model of `ByteString::new`. -/
def new (bytes : List Nat) : ByteString :=
  { bytes := bytes, interpret_reverse_endian := false }

/-- Model of the method `ByteString::interpret_reverse_endian`, which toggles
the flag (named apart from the field projection). -/
def interpretReverseEndian (s : ByteString) : ByteString :=
  { s with interpret_reverse_endian := !s.interpret_reverse_endian }

/-- Model of `ByteString::byte_len`. -/
def byte_len (s : ByteString) : Nat :=
  s.bytes.length

/-- Model of `ByteString::bit_len`. -/
def bit_len (s : ByteString) : Nat :=
  s.byte_len * 8

/-- The logical byte sequence: what a full forward traversal of `iter()` /
`iter_mut()` yields (physical order, reversed when the flag is set). -/
def logical (s : ByteString) : List Nat :=
  if s.interpret_reverse_endian then s.bytes.reverse else s.bytes

/-- Write an entire logical sequence back through `iter_mut()`: the physical
buffer is `l` or its reverse according to the flag. -/
def setLogical (s : ByteString) (l : List Nat) : ByteString :=
  { s with bytes := if s.interpret_reverse_endian then l.reverse else l }

/-- Model of `ByteString::set_bytes_with_value`. -/
def set_bytes_with_value (s : ByteString) (value : Nat) : ByteString :=
  { s with bytes := util.set_bytes s.bytes value }

/-- Model of `ByteString::set_zero`. -/
def set_zero (s : ByteString) : ByteString :=
  s.set_bytes_with_value 0

/-- Model of `ByteString::is_zero`. -/
def is_zero (s : ByteString) : Bool :=
  s.bytes.all (· == 0)

/-- Model of `ByteString::reverse_byte_endianness`: split at `mid`, zip the
first half with the reversed second half, XOR-swap each pair; the structure of
the source loop is kept (`a`, `b`, the zip, the swaps, writing both halves
back). -/
def reverse_byte_endianness (s : ByteString) : ByteString :=
  let count := s.byte_len
  let mid := (count - count % 2) / 2
  let a := s.bytes.take mid
  let b := s.bytes.drop mid
  let swapped := (a.zip b.reverse).map (fun p => util.swap_bytes p.1 p.2)
  let a2 := swapped.map Prod.fst ++ a.drop swapped.length
  let brev2 := swapped.map Prod.snd ++ b.reverse.drop swapped.length
  { s with bytes := a2 ++ brev2.reverse }

/-- Model of `ByteString::reverse_bit_endianness`. -/
def reverse_bit_endianness (s : ByteString) : ByteString :=
  { s with bytes := s.bytes.map util.reverse_bit_endianness }

/-- Rust `slice::rotate_left(mid)` for `mid ≤ len`. -/
def rotateLeftList (l : List Nat) (mid : Nat) : List Nat :=
  l.drop mid ++ l.take mid

/-- Rust `slice::rotate_right(k)` for `k ≤ len` (equals `rotate_left (len - k)`). -/
def rotateRightList (l : List Nat) (k : Nat) : List Nat :=
  l.drop (l.length - k) ++ l.take (l.length - k)

/-- Model of `ByteString::rotl_bytes`.  `slice::rotate_left/rotate_right`
panic when the count exceeds the slice length; the panic is `none`. -/
def rotl_bytes (s : ByteString) (count : Nat) : Option ByteString :=
  if s.interpret_reverse_endian then
    if count ≤ s.bytes.length then
      some { s with bytes := rotateRightList s.bytes count }
    else none
  else
    if count ≤ s.bytes.length then
      some { s with bytes := rotateLeftList s.bytes count }
    else none

/-- Model of `PartialEq::eq` for `ByteString`: length equality together with
`self.iter().eq(other.iter())`, i.e. equality of the logical sequences (each
under its own flag). -/
def eq (a b : ByteString) : Bool :=
  (a.byte_len == b.byte_len) && (a.logical == b.logical)

/-- Model of `Not::not`: every byte replaced by its 8-bit complement through
`iter_mut()`. -/
def not (s : ByteString) : ByteString :=
  s.setLogical (s.logical.map (fun e => e ^^^ 255))

/-- Model of `BitAndAssign`: zip `self.iter_mut()` with `rhs.iter()` and
AND each pair in place; logical positions past the shorter operand are left
unchanged. -/
def bitand_assign (s rhs : ByteString) : ByteString :=
  s.setLogical (List.zipWith (· &&& ·) s.logical rhs.logical ++
    s.logical.drop rhs.logical.length)

/-- Model of `BitXorAssign` (same pairing as `bitand_assign`). -/
def bitxor_assign (s rhs : ByteString) : ByteString :=
  s.setLogical (List.zipWith (· ^^^ ·) s.logical rhs.logical ++
    s.logical.drop rhs.logical.length)

/-- Model of `BitOrAssign` (same pairing as `bitand_assign`). -/
def bitor_assign (s rhs : ByteString) : ByteString :=
  s.setLogical (List.zipWith (· ||| ·) s.logical rhs.logical ++
    s.logical.drop rhs.logical.length)

/-- The carry-propagation loop of `shl_assign`, over the logical tail in
reverse order (least-significant byte first), carry starting at zero.  The
recursion processes the suffix first, exactly like the source's reversed
iterator; the second component is the carry handed out of the front byte. -/
def shlCarryPass (b : Nat) : List Nat → List Nat × Nat
  | [] => ([], 0)
  | x :: rest =>
    let p := shlCarryPass b rest
    ((x * 2 ^ b % 256 ||| p.2) :: p.1, x / 2 ^ (8 - b))

/-- The intra-byte shift pass of `shl_assign`: `iter_mut().skip(k).rev()`
leaves the first `k` logical bytes alone and carry-shifts the rest. -/
def shlBitPass (s : ByteString) (k b : Nat) : ByteString :=
  s.setLogical (s.logical.take k ++ (shlCarryPass b (s.logical.drop k)).1)

/-- The zeroing pass of `shl_assign`: `iter_mut().take(k)` sets the first `k`
logical bytes (the most-significant ones) to zero. -/
def shlZeroPass (s : ByteString) (k : Nat) : ByteString :=
  s.setLogical ((s.logical.take k).map (fun _ => 0) ++ s.logical.drop k)

/-- Comparison definition for the specification's description of the zeroing
step, which says the `byte_part` LEAST-significant logical bytes are zeroed
before the rotation: clear the last `k` entries of the logical sequence.
This follows the spec's words, not the source, and exists only to be compared
with `shlZeroPass`. -/
def shlZeroPassSpecLeast (s : ByteString) (k : Nat) : ByteString :=
  s.setLogical (s.logical.take (s.logical.length - k)
    ++ (s.logical.drop (s.logical.length - k)).map (fun _ => 0))

/-- Model of `ShlAssign::shl_assign`. -/
def shl_assign (s : ByteString) (rhs : Nat) : Option ByteString :=
  if s.is_zero || rhs == 0 then some s
  else if s.bit_len ≤ rhs then some s.set_zero
  else
    let shift_count := rhs % s.bit_len
    let shift_per_byte := shift_count % 8
    let shifted_out_bytes := shift_count / 8
    let s1 := if 0 < shift_per_byte then shlBitPass s shifted_out_bytes shift_per_byte else s
    let s2 := shlZeroPass s1 shifted_out_bytes
    s2.rotl_bytes shifted_out_bytes

end ByteString

/-- Big-endian denotation of a logical byte sequence as one unsigned integer
(the first byte is the most significant digit).  This is the specification's
reading of the buffer, not code from the repository. -/
def beVal : List Nat → Nat
  | [] => 0
  | x :: rest => x * 256 ^ rest.length + beVal rest

/-- Model of `bytes_iter::Index`: a `Range<usize>` iterator or its `Rev`.
Both constructors carry the live `(start, end)` pair of the underlying range. -/
inductive Index where
  | Iter : Nat → Nat → Index
  | RevIter : Nat → Nat → Index
deriving DecidableEq, Repr

namespace Index

/-- Model of `Index::new_iter` on the range `0..n`. -/
def new_iter (n : Nat) : Index := .Iter 0 n

/-- Model of `Index::new_rev_iter` on the range `0..n`. -/
def new_rev_iter (n : Nat) : Index := .RevIter 0 n

/-- Model of `Index::next`: `Range::next` yields the front; `Rev` swaps ends. -/
def next : Index → Option Nat × Index
  | .Iter s e => if s < e then (some s, .Iter (s + 1) e) else (none, .Iter s e)
  | .RevIter s e => if s < e then (some (e - 1), .RevIter s (e - 1)) else (none, .RevIter s e)

/-- Model of `Index::next_back`. -/
def next_back : Index → Option Nat × Index
  | .Iter s e => if s < e then (some (e - 1), .Iter s (e - 1)) else (none, .Iter s e)
  | .RevIter s e => if s < e then (some s, .RevIter (s + 1) e) else (none, .RevIter s e)

/-- Model of `Index::size_hint` (the exact remaining count). -/
def size_hint : Index → Nat
  | .Iter s e => e - s
  | .RevIter s e => e - s

/-- Drive an `Index` through a list of calls (`true` = `next`,
`false` = `next_back`), collecting the produced positions. -/
def run : Index → List Bool → List Nat × Index
  | ix, [] => ([], ix)
  | ix, b :: ops =>
    let step := if b then ix.next else ix.next_back
    let rest := run step.2 ops
    (match step.1 with
     | some x => x :: rest.1
     | none => rest.1, rest.2)

end Index

/-- One step of the underlying double-ended range `(start, end)`:
`front = true` consumes `start`, `front = false` consumes `end - 1`;
an empty range yields nothing and is left unchanged.  `Index.Iter` maps
`next`/`next_back` to front/back directly, `Index.RevIter` swaps them. -/
def rangeStep (r : Nat × Nat) (front : Bool) : Option Nat × (Nat × Nat) :=
  if r.1 < r.2 then
    if front then (some r.1, (r.1 + 1, r.2)) else (some (r.2 - 1), (r.1, r.2 - 1))
  else (none, r)

/-- Drive the underlying range through a list of calls, collecting outputs. -/
def rangeRun : (Nat × Nat) → List Bool → List Nat × (Nat × Nat)
  | r, [] => ([], r)
  | r, b :: ops =>
    let st := rangeStep r b
    let rest := rangeRun st.2 ops
    (match st.1 with
     | some x => x :: rest.1
     | none => rest.1, rest.2)

/-! ### Basic facts about the big-endian denotation -/

theorem beVal_append (l1 l2 : List Nat) :
    beVal (l1 ++ l2) = beVal l1 * 256 ^ l2.length + beVal l2 := by
  induction l1 with
  | nil => simp [beVal]
  | cons x rest ih =>
    simp only [List.cons_append, beVal, List.append_eq, ih, List.length_append]
    ring

theorem beVal_lt (l : List Nat) (h : ∀ x ∈ l, x < 256) : beVal l < 256 ^ l.length := by
  induction l with
  | nil => simp [beVal]
  | cons x rest ih =>
    have hx : x < 256 := h x (by simp)
    have hr : beVal rest < 256 ^ rest.length := ih fun y hy => h y (by simp [hy])
    simp only [beVal, List.length_cons]
    calc x * 256 ^ rest.length + beVal rest
        < x * 256 ^ rest.length + 256 ^ rest.length := by omega
      _ = (x + 1) * 256 ^ rest.length := by ring
      _ ≤ 256 * 256 ^ rest.length := Nat.mul_le_mul_right _ hx
      _ = 256 ^ (rest.length + 1) := by ring

theorem beVal_eq_zero (l : List Nat) (h : ∀ x ∈ l, x = 0) : beVal l = 0 := by
  induction l with
  | nil => rfl
  | cons x rest ih =>
    simp [beVal, h x (by simp), ih fun y hy => h y (by simp [hy])]

theorem beVal_replicate_zero (k : Nat) : beVal (List.replicate k 0) = 0 :=
  beVal_eq_zero _ fun _ hx => ((List.mem_replicate).1 hx).2

set_option maxRecDepth 8192 in
/-- Bitwise OR is addition when the low `b` bits of the left operand are
clear; only the byte-sized instances are needed, so the fact is settled by
enumeration. -/
theorem lor_small : ∀ b < 8, ∀ u < 2 ^ (8 - b), ∀ c < 2 ^ b,
    (2 ^ b * u ||| c) = 2 ^ b * u + c := by decide

/-! ### The logical sequence and `setLogical` -/

namespace ByteString

@[simp] theorem length_logical (s : ByteString) : s.logical.length = s.bytes.length := by
  unfold logical; split <;> simp

@[simp] theorem logical_setLogical (s : ByteString) (l : List Nat) :
    (s.setLogical l).logical = l := by
  unfold setLogical logical
  by_cases h : s.interpret_reverse_endian <;> simp [h]

@[simp] theorem flag_setLogical (s : ByteString) (l : List Nat) :
    (s.setLogical l).interpret_reverse_endian = s.interpret_reverse_endian := rfl

@[simp] theorem byte_len_setLogical (s : ByteString) (l : List Nat) :
    (s.setLogical l).byte_len = l.length := by
  unfold setLogical byte_len
  by_cases h : s.interpret_reverse_endian <;> simp [h]

@[simp] theorem bytes_length_setLogical (s : ByteString) (l : List Nat) :
    (s.setLogical l).bytes.length = l.length := by
  unfold setLogical
  by_cases h : s.interpret_reverse_endian <;> simp [h]

theorem setLogical_setLogical (s : ByteString) (l m : List Nat) :
    (s.setLogical l).setLogical m = s.setLogical m := rfl

theorem setLogical_logical (s : ByteString) : s.setLogical s.logical = s := by
  cases s with
  | mk bytes flag =>
    unfold setLogical logical
    cases flag <;> simp

theorem mem_logical {s : ByteString} {x : Nat} : x ∈ s.logical ↔ x ∈ s.bytes := by
  unfold logical; split <;> simp

theorem shlCarryPass_spec (b : Nat) (hb : b < 8) :
    ∀ l : List Nat, (∀ x ∈ l, x < 256) →
      (shlCarryPass b l).1.length = l.length ∧
      (∀ x ∈ (shlCarryPass b l).1, x < 256) ∧
      beVal (shlCarryPass b l).1 = beVal l * 2 ^ b % 256 ^ l.length ∧
      (shlCarryPass b l).2 = beVal l * 2 ^ b / 256 ^ l.length := by
  intro l
  induction l with
  | nil =>
    intro _
    refine ⟨rfl, by simp [shlCarryPass], by simp [shlCarryPass, beVal], by simp [shlCarryPass, beVal]⟩
  | cons x rest ih =>
    intro h
    obtain ⟨hlen, hmem, hval, hcarry⟩ := ih fun y hy => h y (List.mem_cons_of_mem _ hy)
    have hx : x < 256 := h x (List.mem_cons_self x rest)
    have hMpos : 0 < 256 ^ rest.length := pow_pos (by norm_num) _
    have hbpos : 0 < 2 ^ b := pow_pos (by norm_num) _
    have hb8pos : 0 < 2 ^ (8 - b) := pow_pos (by norm_num) _
    have hVM : beVal rest < 256 ^ rest.length :=
      beVal_lt rest fun y hy => h y (List.mem_cons_of_mem _ hy)
    have key256 : (256 : Nat) = 2 ^ b * 2 ^ (8 - b) := by
      rw [← pow_add, show b + (8 - b) = 8 from by omega]
      norm_num
    -- the low part of the shifted byte
    have hy : x * 2 ^ b % 256 = 2 ^ b * (x % 2 ^ (8 - b)) := by
      rw [key256, Nat.mul_comm x, Nat.mul_mod_mul_left]
    -- the bits shifted out of the byte
    have hq : x * 2 ^ b / 256 = x / 2 ^ (8 - b) := by
      rw [show (256 : Nat) = 2 ^ (8 - b) * 2 ^ b from by rw [Nat.mul_comm]; exact key256]
      exact Nat.mul_div_mul_right x (2 ^ (8 - b)) hbpos
    -- the carry coming in from the less significant bytes is below 2 ^ b
    have hc : (shlCarryPass b rest).2 < 2 ^ b := by
      rw [hcarry, Nat.div_lt_iff_lt_mul hMpos]
      calc beVal rest * 2 ^ b < 256 ^ rest.length * 2 ^ b :=
            (Nat.mul_lt_mul_right hbpos).mpr hVM
        _ = 2 ^ b * 256 ^ rest.length := Nat.mul_comm _ _
    have hlor : x * 2 ^ b % 256 ||| (shlCarryPass b rest).2
        = 2 ^ b * (x % 2 ^ (8 - b)) + (shlCarryPass b rest).2 := by
      rw [hy]
      exact lor_small b hb (x % 2 ^ (8 - b)) (Nat.mod_lt _ hb8pos)
        (shlCarryPass b rest).2 hc
    have hysmall : 2 ^ b * (x % 2 ^ (8 - b)) + 2 ^ b ≤ 256 := by
      have h1 : x % 2 ^ (8 - b) < 2 ^ (8 - b) := Nat.mod_lt _ hb8pos
      calc 2 ^ b * (x % 2 ^ (8 - b)) + 2 ^ b = 2 ^ b * (x % 2 ^ (8 - b) + 1) := by ring
        _ ≤ 2 ^ b * 2 ^ (8 - b) := Nat.mul_le_mul_left _ h1
        _ = 256 := key256.symm
    -- the decomposition of the full value
    have hsplit : x * 2 ^ b = (x / 2 ^ (8 - b)) * 256 + 2 ^ b * (x % 2 ^ (8 - b)) := by
      have hdm := Nat.div_add_mod (x * 2 ^ b) 256
      rw [hq, hy] at hdm
      omega
    have hbig : (x * 256 ^ rest.length + beVal rest) * 2 ^ b
        = (x / 2 ^ (8 - b)) * (256 * 256 ^ rest.length)
          + (2 ^ b * (x % 2 ^ (8 - b)) * 256 ^ rest.length + beVal rest * 2 ^ b) := by
      calc (x * 256 ^ rest.length + beVal rest) * 2 ^ b
          = (x * 2 ^ b) * 256 ^ rest.length + beVal rest * 2 ^ b := by ring
        _ = ((x / 2 ^ (8 - b)) * 256 + 2 ^ b * (x % 2 ^ (8 - b))) * 256 ^ rest.length
              + beVal rest * 2 ^ b := by rw [← hsplit]
        _ = _ := by ring
    have hrem : 2 ^ b * (x % 2 ^ (8 - b)) * 256 ^ rest.length + beVal rest * 2 ^ b
        < 256 * 256 ^ rest.length := by
      have h5 : beVal rest * 2 ^ b < 2 ^ b * 256 ^ rest.length := by
        calc beVal rest * 2 ^ b < 256 ^ rest.length * 2 ^ b :=
              (Nat.mul_lt_mul_right hbpos).mpr hVM
          _ = 2 ^ b * 256 ^ rest.length := Nat.mul_comm _ _
      have h6 : 2 ^ b * (x % 2 ^ (8 - b)) * 256 ^ rest.length + 2 ^ b * 256 ^ rest.length
          ≤ 256 * 256 ^ rest.length := by
        calc 2 ^ b * (x % 2 ^ (8 - b)) * 256 ^ rest.length + 2 ^ b * 256 ^ rest.length
            = (2 ^ b * (x % 2 ^ (8 - b)) + 2 ^ b) * 256 ^ rest.length := by ring
          _ ≤ 256 * 256 ^ rest.length := Nat.mul_le_mul_right _ hysmall
      omega
    refine ⟨?_, ?_, ?_, ?_⟩
    · simpa [shlCarryPass] using hlen
    · intro y hy
      simp only [shlCarryPass, List.mem_cons] at hy
      rcases hy with hy | hy
      · subst hy
        rw [hlor]
        omega
      · exact hmem y hy
    · show beVal ((x * 2 ^ b % 256 ||| (shlCarryPass b rest).2) :: (shlCarryPass b rest).1)
        = beVal (x :: rest) * 2 ^ b % 256 ^ (x :: rest).length
      simp only [beVal, hlen, hval, hlor, List.length_cons]
      rw [hcarry]
      rw [pow_succ, Nat.mul_comm (256 ^ rest.length) 256, hbig,
        Nat.mul_comm (x / 2 ^ (8 - b)) (256 * 256 ^ rest.length), Nat.mul_add_mod,
        Nat.mod_eq_of_lt hrem, Nat.add_mul]
      have hdm2 : (beVal rest * 2 ^ b / 256 ^ rest.length) * 256 ^ rest.length
          + beVal rest * 2 ^ b % 256 ^ rest.length = beVal rest * 2 ^ b := by
        rw [Nat.mul_comm]
        exact Nat.div_add_mod _ _
      omega
    · show x / 2 ^ (8 - b) = beVal (x :: rest) * 2 ^ b / 256 ^ (x :: rest).length
      simp only [beVal, List.length_cons]
      rw [pow_succ, Nat.mul_comm (256 ^ rest.length) 256, hbig,
        Nat.add_comm ((x / 2 ^ (8 - b)) * (256 * 256 ^ rest.length)),
        Nat.mul_comm (x / 2 ^ (8 - b)) (256 * 256 ^ rest.length),
        Nat.add_mul_div_left _ _ (show 0 < 256 * 256 ^ rest.length from by positivity),
        Nat.div_eq_of_lt hrem]
      omega

theorem is_zero_iff {s : ByteString} : s.is_zero = true ↔ ∀ x ∈ s.bytes, x = 0 := by
  unfold is_zero
  simp

theorem bytes_eq_replicate_of_is_zero {s : ByteString} (h : s.is_zero = true) :
    s.bytes = List.replicate s.byte_len 0 := by
  rw [List.eq_replicate_iff]
  exact ⟨rfl, is_zero_iff.1 h⟩

@[simp] theorem set_zero_bytes (s : ByteString) :
    s.set_zero.bytes = List.replicate s.byte_len 0 := by
  unfold set_zero set_bytes_with_value util.set_bytes byte_len
  simp [List.map_const']

@[simp] theorem set_zero_flag (s : ByteString) :
    s.set_zero.interpret_reverse_endian = s.interpret_reverse_endian := rfl

theorem logical_set_zero (s : ByteString) :
    s.set_zero.logical = List.replicate s.byte_len 0 := by
  unfold logical
  by_cases h : s.interpret_reverse_endian <;> simp [h, set_zero_bytes]

theorem shlCarryPass_length (b : Nat) (l : List Nat) :
    (shlCarryPass b l).1.length = l.length := by
  induction l with
  | nil => rfl
  | cons x rest ih => simp [shlCarryPass, ih]

/-! ### Rotation -/

theorem rotl_bytes_eq_some (s : ByteString) (k : Nat) (hk : k ≤ s.bytes.length) :
    s.rotl_bytes k = some (s.setLogical (s.logical.drop k ++ s.logical.take k)) := by
  cases s with
  | mk bytes flag =>
    unfold rotl_bytes rotateLeftList rotateRightList setLogical logical
    simp only [ByteString.mk.injEq] at *
    cases flag
    · simp only [Bool.false_eq_true, if_false, if_pos hk, Option.some.injEq,
        ByteString.mk.injEq, and_true]
    · simp only [if_true, if_pos hk, Option.some.injEq, ByteString.mk.injEq, and_true]
      rw [List.reverse_append, List.take_reverse, List.drop_reverse,
        List.reverse_reverse, List.reverse_reverse]

theorem rotl_bytes_eq_none (s : ByteString) (k : Nat) (hk : s.bytes.length < k) :
    s.rotl_bytes k = none := by
  unfold rotl_bytes
  have hnk : ¬ k ≤ s.bytes.length := by omega
  split <;> simp [hnk]

theorem byte_len_rotl {s t : ByteString} {k : Nat} (h : s.rotl_bytes k = some t) :
    t.byte_len = s.byte_len ∧ t.interpret_reverse_endian = s.interpret_reverse_endian := by
  unfold rotl_bytes at h
  by_cases hf : s.interpret_reverse_endian <;> by_cases hk : k ≤ s.bytes.length <;>
    simp [hf, hk, rotateLeftList, rotateRightList] at h <;> subst h <;>
    simp [byte_len, rotateLeftList, rotateRightList, hf] <;> omega

/-! ### The left-shift closed form -/

theorem shl_assign_closed (s : ByteString) (rhs : Nat)
    (hz : s.is_zero = false) (h0 : 0 < rhs) (hlt : rhs < s.bit_len) :
    s.shl_assign rhs =
      some (s.setLogical
        ((if 0 < rhs % 8 then (shlCarryPass (rhs % 8) (s.logical.drop (rhs / 8))).1
          else s.logical.drop (rhs / 8)) ++ List.replicate (rhs / 8) 0)) := by
  have hbleq : s.byte_len = s.bytes.length := rfl
  have hk : rhs / 8 < s.byte_len := by
    rw [Nat.div_lt_iff_lt_mul (by norm_num)]
    exact hlt
  have hc1 : ¬ (s.is_zero || rhs == 0) = true := by
    simp [hz]
    omega
  have hc2 : ¬ s.bit_len ≤ rhs := Nat.not_le.mpr hlt
  have htklen : (s.logical.take (rhs / 8)).length = rhs / 8 := by
    rw [List.length_take, length_logical]
    omega
  rw [shl_assign, if_neg hc1, if_neg hc2]
  simp only [Nat.mod_eq_of_lt hlt]
  by_cases hb : 0 < rhs % 8
  · rw [if_pos hb, if_pos hb]
    have hs1 : (shlBitPass s (rhs / 8) (rhs % 8)).logical
        = s.logical.take (rhs / 8)
          ++ (shlCarryPass (rhs % 8) (s.logical.drop (rhs / 8))).1 := by
      unfold shlBitPass
      exact logical_setLogical _ _
    have hzp : (shlZeroPass (shlBitPass s (rhs / 8) (rhs % 8)) (rhs / 8)).logical
        = List.replicate (rhs / 8) 0
          ++ (shlCarryPass (rhs % 8) (s.logical.drop (rhs / 8))).1 := by
      unfold shlZeroPass
      rw [logical_setLogical, hs1, List.take_left' htklen, List.drop_left' htklen,
        List.map_const', htklen]
    have hlen2 : rhs / 8 ≤ (shlZeroPass (shlBitPass s (rhs / 8) (rhs % 8)) (rhs / 8)).bytes.length := by
      unfold shlZeroPass
      simp only [bytes_length_setLogical, List.length_append, List.length_map, List.length_take,
        List.length_drop, hs1, shlCarryPass_length, length_logical]
      omega
    rw [rotl_bytes_eq_some _ _ hlen2, hzp, List.drop_left' (by simp), List.take_left' (by simp)]
    unfold shlZeroPass shlBitPass
    rw [setLogical_setLogical, setLogical_setLogical]
  · rw [if_neg hb, if_neg hb]
    have hzp : (shlZeroPass s (rhs / 8)).logical
        = List.replicate (rhs / 8) 0 ++ s.logical.drop (rhs / 8) := by
      unfold shlZeroPass
      rw [logical_setLogical, List.map_const', htklen]
    have hlen2 : rhs / 8 ≤ (shlZeroPass s (rhs / 8)).bytes.length := by
      unfold shlZeroPass
      simp only [bytes_length_setLogical, List.length_append, List.length_map, List.length_take,
        List.length_drop, length_logical]
      omega
    rw [rotl_bytes_eq_some _ _ hlen2, hzp, List.drop_left' (by simp), List.take_left' (by simp)]
    unfold shlZeroPass
    rw [setLogical_setLogical]

/-- The key modular identity behind the shift: splitting the big-endian value
at byte `k` and reducing modulo the width. -/
theorem shl_mod_arith (Tk D N k b : Nat) (hk : k ≤ N) :
    (Tk * 256 ^ (N - k) + D) * 2 ^ (8 * k + b) % 256 ^ N
      = (D * 2 ^ b % 256 ^ (N - k)) * 256 ^ k := by
  have h1 : (256 : Nat) ^ k = 2 ^ (8 * k) := by
    rw [show (256 : Nat) = 2 ^ 8 from by norm_num, ← pow_mul]
  have hN : (256 : Nat) ^ N = 256 ^ (N - k) * 256 ^ k := by
    rw [← pow_add, Nat.sub_add_cancel hk]
  have h2 : (Tk * 256 ^ (N - k) + D) * 2 ^ (8 * k + b)
      = 256 ^ N * (Tk * 2 ^ b) + (D * 2 ^ b) * 256 ^ k := by
    rw [pow_add 2 (8 * k) b, ← h1, hN]
    ring
  rw [h2, Nat.mul_add_mod, hN, Nat.mul_mod_mul_right]

theorem shl_logical_beVal (s : ByteString) (h256 : ∀ x ∈ s.bytes, x < 256) (rhs : Nat)
    (hlt : rhs < s.bit_len) :
    beVal ((if 0 < rhs % 8 then (shlCarryPass (rhs % 8) (s.logical.drop (rhs / 8))).1
            else s.logical.drop (rhs / 8)) ++ List.replicate (rhs / 8) 0)
      = beVal s.logical * 2 ^ rhs % 256 ^ s.byte_len := by
  have hk : rhs / 8 < s.byte_len := by
    rw [Nat.div_lt_iff_lt_mul (by norm_num)]
    exact hlt
  have hmemdrop : ∀ x ∈ s.logical.drop (rhs / 8), x < 256 := fun x hx =>
    h256 x (mem_logical.1 (List.mem_of_mem_drop hx))
  have hdroplen : (s.logical.drop (rhs / 8)).length = s.byte_len - rhs / 8 := by
    rw [List.length_drop, length_logical]
    rfl
  have hT : beVal (if 0 < rhs % 8 then (shlCarryPass (rhs % 8) (s.logical.drop (rhs / 8))).1
            else s.logical.drop (rhs / 8))
      = beVal (s.logical.drop (rhs / 8)) * 2 ^ (rhs % 8) % 256 ^ (s.byte_len - rhs / 8) := by
    by_cases hb : 0 < rhs % 8
    · rw [if_pos hb]
      have := (shlCarryPass_spec (rhs % 8) (Nat.mod_lt _ (by norm_num)) _ hmemdrop).2.2.1
      rw [this, hdroplen]
    · rw [if_neg hb]
      have hb0 : rhs % 8 = 0 := by omega
      rw [hb0, pow_zero, Nat.mul_one, ← hdroplen,
        Nat.mod_eq_of_lt (beVal_lt _ hmemdrop)]
  rw [beVal_append, hT, List.length_replicate, beVal_replicate_zero, Nat.add_zero]
  have hsplitl : beVal s.logical
      = beVal (s.logical.take (rhs / 8)) * 256 ^ (s.byte_len - rhs / 8)
        + beVal (s.logical.drop (rhs / 8)) := by
    conv_lhs => rw [← List.take_append_drop (rhs / 8) s.logical]
    rw [beVal_append, hdroplen]
  rw [hsplitl]
  have harith := shl_mod_arith (beVal (s.logical.take (rhs / 8)))
    (beVal (s.logical.drop (rhs / 8))) s.byte_len (rhs / 8) (rhs % 8) (Nat.le_of_lt hk)
  rw [Nat.div_add_mod rhs 8] at harith
  exact harith.symm

end ByteString

open ByteString

/-! ### Byte-endianness reversal -/

theorem swap_bytes_eq (a b : Nat) : util.swap_bytes a b = (b, a) := by
  show ((a ^^^ b) ^^^ (b ^^^ (a ^^^ b)), b ^^^ (a ^^^ b)) = (b, a)
  have h1 : b ^^^ (a ^^^ b) = a := by
    rw [Nat.xor_comm a b, ← Nat.xor_assoc, Nat.xor_self, Nat.zero_xor]
  rw [h1]
  have h2 : (a ^^^ b) ^^^ a = b := by
    rw [Nat.xor_comm a b, Nat.xor_assoc, Nat.xor_self, Nat.xor_zero]
  rw [h2]

theorem map_snd_zip_eq_take (l₁ l₂ : List Nat) (h : l₁.length ≤ l₂.length) :
    (l₁.zip l₂).map Prod.snd = l₂.take l₁.length := by
  induction l₁ generalizing l₂ with
  | nil => simp
  | cons x xs ih =>
    cases l₂ with
    | nil => simp at h
    | cons y ys =>
      simp only [List.zip_cons_cons, List.map_cons, List.length_cons, List.take_succ_cons]
      rw [ih ys (by simpa using h)]

theorem reverse_eq_self_of_length_le_one (l : List Nat) (h : l.length ≤ 1) :
    l.reverse = l := by
  cases l with
  | nil => rfl
  | cons x xs =>
    cases xs with
    | nil => rfl
    | cons y ys => simp at h

theorem reverse_byte_endianness_eq (s : ByteString) :
    s.reverse_byte_endianness
      = ByteString.mk s.bytes.reverse s.interpret_reverse_endian := by
  cases s with
  | mk bytes flag =>
    simp only [ByteString.reverse_byte_endianness, ByteString.byte_len, ByteString.mk.injEq,
      and_true]
    have hm : (bytes.length - bytes.length % 2) / 2 = bytes.length / 2 := by omega
    rw [hm]
    have hA : (bytes.take (bytes.length / 2)).length = bytes.length / 2 := by
      rw [List.length_take]
      omega
    have hBrevlen : (bytes.drop (bytes.length / 2)).reverse.length
        = bytes.length - bytes.length / 2 := by
      rw [List.length_reverse, List.length_drop]
    have hAle : (bytes.take (bytes.length / 2)).length
        ≤ (bytes.drop (bytes.length / 2)).reverse.length := by
      rw [hA, hBrevlen]
      omega
    have hswap : ((bytes.take (bytes.length / 2)).zip
          (bytes.drop (bytes.length / 2)).reverse).map
            (fun p => util.swap_bytes p.1 p.2)
        = ((bytes.take (bytes.length / 2)).zip
          (bytes.drop (bytes.length / 2)).reverse).map (fun p => (p.2, p.1)) :=
      List.map_congr_left fun p _ => swap_bytes_eq p.1 p.2
    rw [hswap, List.map_map, List.map_map]
    have hfst : (((bytes.take (bytes.length / 2)).zip
          (bytes.drop (bytes.length / 2)).reverse).map (Prod.fst ∘ fun p => (p.2, p.1)))
        = (bytes.drop (bytes.length / 2)).reverse.take (bytes.length / 2) := by
      rw [show (Prod.fst ∘ fun p : Nat × Nat => (p.2, p.1)) = Prod.snd from rfl,
        map_snd_zip_eq_take _ _ hAle, hA]
    have hsnd : (((bytes.take (bytes.length / 2)).zip
          (bytes.drop (bytes.length / 2)).reverse).map (Prod.snd ∘ fun p => (p.2, p.1)))
        = bytes.take (bytes.length / 2) := by
      rw [show (Prod.snd ∘ fun p : Nat × Nat => (p.2, p.1)) = Prod.fst from rfl,
        List.map_fst_zip _ _ hAle]
    rw [hfst, hsnd, List.length_map, List.length_zip, hA, hBrevlen]
    have hmin : min (bytes.length / 2) (bytes.length - bytes.length / 2)
        = bytes.length / 2 := by omega
    rw [hmin, List.drop_eq_nil_of_le (by omega : (bytes.take (bytes.length / 2)).length
      ≤ bytes.length / 2), List.append_nil]
    -- remaining: Brev.take mid ++ (A ++ Brev.drop mid).reverse = bytes.reverse
    rw [List.reverse_append]
    have hdropsmall : ((bytes.drop (bytes.length / 2)).reverse.drop
        (bytes.length / 2)).reverse
        = (bytes.drop (bytes.length / 2)).reverse.drop (bytes.length / 2) := by
      apply reverse_eq_self_of_length_le_one
      rw [List.length_drop, hBrevlen]
      omega
    rw [hdropsmall, ← List.append_assoc, List.take_append_drop]
    conv_rhs => rw [← List.take_append_drop (bytes.length / 2) bytes]
    rw [List.reverse_append]

/-! ### Positionwise view of the bitwise-assign surgery -/

theorem padZip_getElem_lt (f : Nat → Nat → Nat) (A B : List Nat) (i : Nat)
    (h : i < min A.length B.length) :
    ∃ x y, A[i]? = some x ∧ B[i]? = some y ∧
      (List.zipWith f A B ++ A.drop B.length)[i]? = some (f x y) := by
  have hiA : i < A.length := by omega
  have hiB : i < B.length := by omega
  refine ⟨A[i], B[i], List.getElem?_eq_getElem hiA, List.getElem?_eq_getElem hiB, ?_⟩
  rw [List.getElem?_append_left (by rw [List.length_zipWith]; omega), List.getElem?_zipWith,
    List.getElem?_eq_getElem hiA, List.getElem?_eq_getElem hiB]

theorem padZip_getElem_ge (f : Nat → Nat → Nat) (A B : List Nat) (i : Nat)
    (h : min A.length B.length ≤ i) :
    (List.zipWith f A B ++ A.drop B.length)[i]? = A[i]? := by
  rcases Nat.le_total B.length A.length with hba | hab
  · have hmin : min A.length B.length = B.length := Nat.min_eq_right hba
    rw [List.getElem?_append_right (by rw [List.length_zipWith]; omega),
      List.length_zipWith, hmin, List.getElem?_drop]
    congr 1
    omega
  · have hmin : min A.length B.length = A.length := Nat.min_eq_left hab
    rw [List.drop_eq_nil_of_le hab, List.append_nil]
    rw [List.getElem?_eq_none (by rw [List.length_zipWith]; omega),
      List.getElem?_eq_none (by omega)]

/-! ### The Index sequence as a double-ended range -/

namespace Index

theorem run_Iter (ops : List Bool) : ∀ a b : Nat,
    Index.run (.Iter a b) ops
      = ((rangeRun (a, b) ops).1,
         .Iter (rangeRun (a, b) ops).2.1 (rangeRun (a, b) ops).2.2) := by
  induction ops with
  | nil => intro a b; rfl
  | cons op ops ih =>
    intro a b
    by_cases hab : a < b
    · cases op <;>
        simp [Index.run, Index.next, Index.next_back, rangeRun, rangeStep, hab, ih]
    · cases op <;>
        simp [Index.run, Index.next, Index.next_back, rangeRun, rangeStep, hab, ih]

theorem run_RevIter (ops : List Bool) : ∀ a b : Nat,
    Index.run (.RevIter a b) ops
      = ((rangeRun (a, b) (ops.map fun o => !o)).1,
         .RevIter (rangeRun (a, b) (ops.map fun o => !o)).2.1
           (rangeRun (a, b) (ops.map fun o => !o)).2.2) := by
  induction ops with
  | nil => intro a b; rfl
  | cons op ops ih =>
    intro a b
    by_cases hab : a < b
    · cases op <;>
        simp [Index.run, Index.next, Index.next_back, rangeRun, rangeStep, hab, ih]
    · cases op <;>
        simp [Index.run, Index.next, Index.next_back, rangeRun, rangeStep, hab, ih]

theorem rangeRun_spec (ops : List Bool) : ∀ a b : Nat, a ≤ b →
    a ≤ (rangeRun (a, b) ops).2.1 ∧
    (rangeRun (a, b) ops).2.1 ≤ (rangeRun (a, b) ops).2.2 ∧
    (rangeRun (a, b) ops).2.2 ≤ b ∧
    (rangeRun (a, b) ops).1.Nodup ∧
    (∀ x, x ∈ (rangeRun (a, b) ops).1 ↔
      a ≤ x ∧ x < b ∧ ¬((rangeRun (a, b) ops).2.1 ≤ x ∧ x < (rangeRun (a, b) ops).2.2)) ∧
    (b - a ≤ ops.length → (rangeRun (a, b) ops).2.1 = (rangeRun (a, b) ops).2.2) := by
  induction ops with
  | nil =>
    intro a b hab
    dsimp only [rangeRun]
    refine ⟨le_refl a, hab, le_refl b, List.nodup_nil, ?_, ?_⟩
    · intro x
      simp only [List.not_mem_nil, false_iff]
      omega
    · intro h
      simp only [List.length_nil] at h
      omega
  | cons op ops ih =>
    intro a b hab
    by_cases hab2 : a < b
    · cases op with
      | false =>
        have hstep : rangeRun (a, b) (false :: ops)
            = ((b - 1) :: (rangeRun (a, b - 1) ops).1, (rangeRun (a, b - 1) ops).2) := by
          simp [rangeRun, rangeStep, hab2]
        obtain ⟨i1, i2, i3, i4, i5, i6⟩ := ih a (b - 1) (by omega)
        rw [hstep]
        dsimp only
        refine ⟨i1, i2, by omega, ?_, ?_, ?_⟩
        · exact List.nodup_cons.mpr ⟨fun hmem => by have := (i5 (b - 1)).1 hmem; omega, i4⟩
        · intro x
          rw [List.mem_cons, i5 x]
          omega
        · intro hlen
          apply i6
          simp only [List.length_cons] at hlen
          omega
      | true =>
        have hstep : rangeRun (a, b) (true :: ops)
            = (a :: (rangeRun (a + 1, b) ops).1, (rangeRun (a + 1, b) ops).2) := by
          simp [rangeRun, rangeStep, hab2]
        obtain ⟨i1, i2, i3, i4, i5, i6⟩ := ih (a + 1) b (by omega)
        rw [hstep]
        dsimp only
        refine ⟨by omega, i2, i3, ?_, ?_, ?_⟩
        · exact List.nodup_cons.mpr ⟨fun hmem => by have := (i5 a).1 hmem; omega, i4⟩
        · intro x
          rw [List.mem_cons, i5 x]
          omega
        · intro hlen
          apply i6
          simp only [List.length_cons] at hlen
          omega
    · have hstep : rangeRun (a, b) (op :: ops) = rangeRun (a, b) ops := by
        simp [rangeRun, rangeStep, hab2]
      obtain ⟨i1, i2, i3, i4, i5, i6⟩ := ih a b hab
      rw [hstep]
      exact ⟨i1, i2, i3, i4, i5, fun _ => i6 (by omega)⟩

theorem rangeRun_all_front (n : Nat) : ∀ a : Nat,
    (rangeRun (a, a + n) (List.replicate n true)).1 = List.range' a n := by
  induction n with
  | zero => intro a; rfl
  | succ n ih =>
    intro a
    have hstep : rangeRun (a, a + (n + 1)) (List.replicate (n + 1) true)
        = (a :: (rangeRun (a + 1, a + (n + 1)) (List.replicate n true)).1,
           (rangeRun (a + 1, a + (n + 1)) (List.replicate n true)).2) := by
      simp [List.replicate_succ, rangeRun, rangeStep, show a < a + (n + 1) from by omega]
    rw [hstep, show a + (n + 1) = a + 1 + n from by omega, ih (a + 1), List.range'_succ]

theorem rangeRun_all_back (n : Nat) : ∀ a : Nat,
    (rangeRun (a, a + n) (List.replicate n false)).1 = (List.range' a n).reverse := by
  induction n with
  | zero => intro a; rfl
  | succ n ih =>
    intro a
    have hstep : rangeRun (a, a + (n + 1)) (List.replicate (n + 1) false)
        = ((a + n) :: (rangeRun (a, a + n) (List.replicate n false)).1,
           (rangeRun (a, a + n) (List.replicate n false)).2) := by
      simp [List.replicate_succ, rangeRun, rangeStep,
        show a < a + (n + 1) from by omega, show a + (n + 1) - 1 = a + n from by omega]
    rw [hstep, ih a, List.range'_1_concat]
    simp

theorem rangeRun_exhausted (ops : List Bool) : ∀ a : Nat,
    rangeRun (a, a) ops = ([], (a, a)) := by
  induction ops with
  | nil => intro a; rfl
  | cons op ops ih => intro a; simp [rangeRun, rangeStep, ih]

end Index

/-! ### Frame facts for the shift -/

theorem shl_assign_frame (s : ByteString) (rhs : Nat) (t : ByteString)
    (h : s.shl_assign rhs = some t) :
    t.byte_len = s.byte_len ∧ t.interpret_reverse_endian = s.interpret_reverse_endian := by
  have hbl : s.byte_len = s.bytes.length := rfl
  have hbit : s.bit_len = s.byte_len * 8 := rfl
  by_cases hz : s.is_zero = true
  · unfold ByteString.shl_assign at h
    rw [if_pos (by simp [hz])] at h
    injection h with h
    subst h
    exact ⟨rfl, rfl⟩
  · by_cases h0 : rhs = 0
    · unfold ByteString.shl_assign at h
      rw [if_pos (by simp [h0])] at h
      injection h with h
      subst h
      exact ⟨rfl, rfl⟩
    · by_cases hle : s.bit_len ≤ rhs
      · unfold ByteString.shl_assign at h
        rw [if_neg (by simp [show s.is_zero = false from by simpa using hz, h0]),
          if_pos hle] at h
        injection h with h
        subst h
        refine ⟨?_, rfl⟩
        unfold ByteString.set_zero ByteString.set_bytes_with_value util.set_bytes
          ByteString.byte_len
        simp
      · rw [shl_assign_closed s rhs (by simpa using hz) (Nat.pos_of_ne_zero h0)
          (by omega)] at h
        injection h with h
        subst h
        refine ⟨?_, rfl⟩
        rw [byte_len_setLogical, List.length_append, List.length_replicate]
        have hk : rhs / 8 < s.byte_len := by omega
        by_cases hb : 0 < rhs % 8
        · rw [if_pos hb, shlCarryPass_length, List.length_drop, length_logical]
          omega
        · rw [if_neg hb, List.length_drop, length_logical]
          omega

/-! ### Claim theorems -/


/-- C1: for every buffer, either flag state and every shift amount, left
shift-assign transforms the unsigned integer denoted by the logical byte
sequence read as big-endian digits of width `8 * N`: a no-op when the buffer
is all-zero or `rhs = 0`, all-zero when `rhs ≥ 8 * N`, and in general the new
logical value is `(old value * 2 ^ rhs) mod 2 ^ (8 * N)`. -/
theorem C1_shl_assign_value (s : ByteString) (h256 : ∀ x ∈ s.bytes, x < 256) (rhs : Nat) :
    ∃ t, s.shl_assign rhs = some t ∧
      (s.is_zero = true ∨ rhs = 0 → t = s) ∧
      (s.bit_len ≤ rhs → t.bytes = List.replicate s.byte_len 0) ∧
      beVal t.logical = beVal s.logical * 2 ^ rhs % 2 ^ (8 * s.byte_len) := by
  have hpow : (2 : Nat) ^ (8 * s.byte_len) = 256 ^ s.byte_len := by
    rw [show (256 : Nat) = 2 ^ 8 from by norm_num, ← pow_mul]
  have hv : beVal s.logical < 256 ^ s.byte_len := by
    have h := beVal_lt s.logical fun x hx => h256 x (mem_logical.1 hx)
    rwa [length_logical] at h
  by_cases hz : s.is_zero = true
  · refine ⟨s, ?_, fun _ => rfl, ?_, ?_⟩
    · unfold ByteString.shl_assign
      rw [if_pos (by simp [hz])]
    · intro _
      exact bytes_eq_replicate_of_is_zero hz
    · have h0 : beVal s.logical = 0 :=
        beVal_eq_zero _ fun x hx => is_zero_iff.1 hz x (mem_logical.1 hx)
      simp [h0]
  · have hz' : s.is_zero = false := by simpa using hz
    by_cases h0 : rhs = 0
    · subst h0
      refine ⟨s, ?_, fun _ => rfl, ?_, ?_⟩
      · unfold ByteString.shl_assign
        rw [if_pos (by simp)]
      · intro hle
        have hN : s.byte_len = 0 := by
          unfold ByteString.bit_len at hle
          omega
        have hnil : s.bytes = [] := List.eq_nil_of_length_eq_zero hN
        rw [hN, hnil]
        rfl
      · rw [pow_zero, Nat.mul_one, hpow, Nat.mod_eq_of_lt hv]
    · by_cases hle : s.bit_len ≤ rhs
      · refine ⟨s.set_zero, ?_, ?_, fun _ => set_zero_bytes s, ?_⟩
        · unfold ByteString.shl_assign
          rw [if_neg (by simp [hz', h0]), if_pos hle]
        · intro hc
          rcases hc with hc | hc
          · rw [hz'] at hc
            cases hc
          · exact absurd hc h0
        · rw [logical_set_zero, beVal_replicate_zero]
          symm
          refine Nat.mod_eq_zero_of_dvd (Dvd.dvd.mul_left (pow_dvd_pow 2 ?_) _)
          unfold ByteString.bit_len at hle
          omega
      · have hlt : rhs < s.bit_len := by omega
        have hpos : 0 < rhs := Nat.pos_of_ne_zero h0
        refine ⟨_, shl_assign_closed s rhs hz' hpos hlt, ?_, ?_, ?_⟩
        · intro hc
          rcases hc with hc | hc
          · rw [hz'] at hc
            cases hc
          · exact absurd hc h0
        · intro hc
          exact absurd hc (by omega)
        · rw [logical_setLogical, hpow]
          exact shl_logical_beVal s h256 rhs hlt

/-- Witness for C1 at the spec's concrete example `[1,2,3,4] <<= 7`. -/
theorem C1_shl_assign_value_witness :
    (∀ x ∈ (ByteString.mk [1, 2, 3, 4] false).bytes, x < 256) ∧
    (∃ t, (ByteString.mk [1, 2, 3, 4] false).shl_assign 7 = some t ∧
      ((ByteString.mk [1, 2, 3, 4] false).is_zero = true ∨ (7 : Nat) = 0 →
        t = ByteString.mk [1, 2, 3, 4] false) ∧
      ((ByteString.mk [1, 2, 3, 4] false).bit_len ≤ 7 →
        t.bytes = List.replicate (ByteString.mk [1, 2, 3, 4] false).byte_len 0) ∧
      beVal t.logical = beVal (ByteString.mk [1, 2, 3, 4] false).logical * 2 ^ 7
        % 2 ^ (8 * (ByteString.mk [1, 2, 3, 4] false).byte_len)) ∧
    (ByteString.mk [1, 2, 3, 4] false).shl_assign 7
      = some (ByteString.mk [0x81, 0x01, 0x82, 0x00] false) :=
  ⟨by decide, C1_shl_assign_value (ByteString.mk [1, 2, 3, 4] false) (by decide) 7, by decide⟩

/-- C3 counterexample: `rotl_bytes` with a count larger than the buffer length
does not complete (Rust's `slice::rotate_left` panics when the count exceeds
the slice length), refuting totality for every count. -/
theorem C3_rotl_out_of_range_fails :
    (ByteString.mk [0] false).rotl_bytes 2 = none := by decide

/-- C3 amended: every modelled operation is total except `rotl_bytes`, which
completes exactly when `count ≤ byte_len`; in particular left shift-assign
always completes because its internal rotation count stays in bounds. -/
theorem C3_totality (s : ByteString) (count rhs : Nat) :
    (count ≤ s.byte_len → (s.rotl_bytes count).isSome = true) ∧
    (s.byte_len < count → s.rotl_bytes count = none) ∧
    (s.shl_assign rhs).isSome = true := by
  refine ⟨?_, ?_, ?_⟩
  · intro h
    rw [rotl_bytes_eq_some s count h]
    rfl
  · intro h
    exact rotl_bytes_eq_none s count h
  · by_cases hz : s.is_zero = true
    · unfold ByteString.shl_assign
      rw [if_pos (by simp [hz])]
      rfl
    · by_cases h0 : rhs = 0
      · unfold ByteString.shl_assign
        rw [if_pos (by simp [h0])]
        rfl
      · by_cases hle : s.bit_len ≤ rhs
        · unfold ByteString.shl_assign
          rw [if_neg (by simp [show s.is_zero = false from by simpa using hz, h0]), if_pos hle]
          rfl
        · rw [shl_assign_closed s rhs (by simpa using hz) (Nat.pos_of_ne_zero h0) (by omega)]
          rfl

/-- C2 counterexample: on `[1,2,3,4]` shifted by 8 (`byte_part = 1`, no bit
part) the code produces `[2,3,4,0]`, while zeroing the least-significant
logical byte and then rotating — the claim's description — produces
`[2,3,0,1]`. -/
theorem C2_least_significant_refuted :
    (ByteString.mk [1, 2, 3, 4] false).shl_assign 8
        = some (ByteString.mk [2, 3, 4, 0] false) ∧
    (shlZeroPassSpecLeast (ByteString.mk [1, 2, 3, 4] false) 1).rotl_bytes 1
        = some (ByteString.mk [2, 3, 0, 1] false) ∧
    ByteString.mk [2, 3, 4, 0] false ≠ ByteString.mk [2, 3, 0, 1] false := by
  decide

/-- C2 amended: after the carry-propagation pass the operation zeroes the
`byte_part` MOST-significant logical bytes (the first `byte_part` entries of
the logical sequence), and then rotates the physical buffer by `byte_part`
positions via `rotl_bytes` (left when the flag is false, right when true),
which moves the zeroed region to the least-significant logical end. -/
theorem C2_zero_then_rotate (s : ByteString) (rhs : Nat)
    (hz : s.is_zero = false) (h0 : 0 < rhs) (hlt : rhs < s.bit_len) :
    ∃ t, s.shl_assign rhs
        = (shlZeroPass (if 0 < rhs % 8 then shlBitPass s (rhs / 8) (rhs % 8) else s)
            (rhs / 8)).rotl_bytes (rhs / 8) ∧
      (shlZeroPass (if 0 < rhs % 8 then shlBitPass s (rhs / 8) (rhs % 8) else s)
          (rhs / 8)).logical.take (rhs / 8) = List.replicate (rhs / 8) 0 ∧
      (shlZeroPass (if 0 < rhs % 8 then shlBitPass s (rhs / 8) (rhs % 8) else s)
          (rhs / 8)).rotl_bytes (rhs / 8) = some t ∧
      t.logical = (if 0 < rhs % 8 then shlBitPass s (rhs / 8) (rhs % 8) else s).logical.drop
          (rhs / 8) ++ List.replicate (rhs / 8) 0 ∧
      t.logical.drop (s.byte_len - rhs / 8) = List.replicate (rhs / 8) 0 := by
  have hbleq : s.byte_len = s.bytes.length := rfl
  have hk : rhs / 8 < s.byte_len := by
    rw [Nat.div_lt_iff_lt_mul (by norm_num)]
    exact hlt
  have hc1 : ¬ (s.is_zero || rhs == 0) = true := by
    simp [hz]
    omega
  have hc2 : ¬ s.bit_len ≤ rhs := Nat.not_le.mpr hlt
  have htklen : (s.logical.take (rhs / 8)).length = rhs / 8 := by
    rw [List.length_take, length_logical]
    omega
  -- the logical sequence of the state the zeroing pass receives
  have hs1log : (if 0 < rhs % 8 then shlBitPass s (rhs / 8) (rhs % 8) else s).logical.length
      = s.byte_len := by
    by_cases hb : 0 < rhs % 8
    · rw [if_pos hb]
      unfold ByteString.shlBitPass
      rw [logical_setLogical, List.length_append, htklen, shlCarryPass_length,
        List.length_drop, length_logical]
      omega
    · rw [if_neg hb, length_logical]
      exact hbleq.symm
  have hs1take : (if 0 < rhs % 8 then shlBitPass s (rhs / 8) (rhs % 8) else s).logical.take
      (rhs / 8) = s.logical.take (rhs / 8) := by
    by_cases hb : 0 < rhs % 8
    · rw [if_pos hb]
      unfold ByteString.shlBitPass
      rw [logical_setLogical, List.take_left' htklen]
    · rw [if_neg hb]
  have hzplog : (shlZeroPass (if 0 < rhs % 8 then shlBitPass s (rhs / 8) (rhs % 8) else s)
      (rhs / 8)).logical = List.replicate (rhs / 8) 0
        ++ (if 0 < rhs % 8 then shlBitPass s (rhs / 8) (rhs % 8) else s).logical.drop
          (rhs / 8) := by
    unfold ByteString.shlZeroPass
    rw [logical_setLogical, hs1take, List.map_const', htklen]
  have hdlen : ((if 0 < rhs % 8 then shlBitPass s (rhs / 8) (rhs % 8) else s).logical.drop
      (rhs / 8)).length = s.byte_len - rhs / 8 := by
    rw [List.length_drop, hs1log]
  have hzplen : rhs / 8
      ≤ (shlZeroPass (if 0 < rhs % 8 then shlBitPass s (rhs / 8) (rhs % 8) else s)
          (rhs / 8)).bytes.length := by
    have hl := congrArg List.length hzplog
    rw [length_logical] at hl
    rw [hl, List.length_append, List.length_replicate]
    omega
  have hrot := rotl_bytes_eq_some
    (shlZeroPass (if 0 < rhs % 8 then shlBitPass s (rhs / 8) (rhs % 8) else s) (rhs / 8))
    (rhs / 8) hzplen
  refine ⟨_, ?_, ?_, hrot, ?_, ?_⟩
  · unfold ByteString.shl_assign
    rw [if_neg hc1, if_neg hc2]
    simp only [Nat.mod_eq_of_lt hlt]
  · rw [hzplog]
    exact List.take_left' (List.length_replicate _ _)
  · rw [logical_setLogical, hzplog, List.drop_left' (List.length_replicate _ _),
      List.take_left' (List.length_replicate _ _)]
  · rw [logical_setLogical, hzplog, List.drop_left' (List.length_replicate _ _),
      List.take_left' (List.length_replicate _ _)]
    exact List.drop_left' hdlen

/-- Witness for C2 amended at `[1,2,3,4] <<= 8`. -/
theorem C2_zero_then_rotate_witness :
    ∃ t, (ByteString.mk [1, 2, 3, 4] false).shl_assign 8
        = (shlZeroPass (if 0 < 8 % 8 then shlBitPass (ByteString.mk [1, 2, 3, 4] false)
            (8 / 8) (8 % 8) else ByteString.mk [1, 2, 3, 4] false) (8 / 8)).rotl_bytes (8 / 8) ∧
      (shlZeroPass (if 0 < 8 % 8 then shlBitPass (ByteString.mk [1, 2, 3, 4] false)
          (8 / 8) (8 % 8) else ByteString.mk [1, 2, 3, 4] false) (8 / 8)).logical.take (8 / 8)
        = List.replicate (8 / 8) 0 ∧
      (shlZeroPass (if 0 < 8 % 8 then shlBitPass (ByteString.mk [1, 2, 3, 4] false)
          (8 / 8) (8 % 8) else ByteString.mk [1, 2, 3, 4] false) (8 / 8)).rotl_bytes (8 / 8)
        = some t ∧
      t.logical = (if 0 < 8 % 8 then shlBitPass (ByteString.mk [1, 2, 3, 4] false)
          (8 / 8) (8 % 8) else ByteString.mk [1, 2, 3, 4] false).logical.drop (8 / 8)
        ++ List.replicate (8 / 8) 0 ∧
      t.logical.drop ((ByteString.mk [1, 2, 3, 4] false).byte_len - 8 / 8)
        = List.replicate (8 / 8) 0 :=
  C2_zero_then_rotate (ByteString.mk [1, 2, 3, 4] false) 8 (by decide) (by decide) (by decide)

/-- C4: two views compare equal iff their byte lengths match and their logical
byte sequences (each under its own flag) are element-wise equal; hence two
equal-content views with identical flags are equal, flipping one operand's
flag on an asymmetric buffer makes them unequal, and on a palindromic buffer
they stay equal regardless of either flag. -/
theorem C4_equality (a : ByteString) :
    (∀ b : ByteString,
      ByteString.eq a b = true ↔ a.byte_len = b.byte_len ∧ a.logical = b.logical) ∧
    (∀ (l : List Nat) (f : Bool),
      ByteString.eq (ByteString.mk l f) (ByteString.mk l f) = true) ∧
    (a.bytes.reverse ≠ a.bytes →
      ByteString.eq a (ByteString.mk a.bytes (!a.interpret_reverse_endian)) = false) ∧
    (a.bytes.reverse = a.bytes → ∀ f g : Bool,
      ByteString.eq (ByteString.mk a.bytes f) (ByteString.mk a.bytes g) = true) := by
  refine ⟨?_, ?_, ?_, ?_⟩
  · intro b
    unfold ByteString.eq
    simp
  · intro l f
    unfold ByteString.eq ByteString.logical ByteString.byte_len
    simp
  · intro h
    unfold ByteString.eq ByteString.logical ByteString.byte_len
    cases hf : a.interpret_reverse_endian <;> simp [hf]
    · exact fun hh => h hh.symm
    · exact fun hh => h hh
  · intro h f g
    unfold ByteString.eq ByteString.logical ByteString.byte_len
    cases f <;> cases g <;> simp [h]

/-- Witness for C4 on the spec's buffers `[1,2,3,4]` (asymmetric) and
`[1,2,1]` (palindromic). -/
theorem C4_equality_witness :
    ByteString.eq (ByteString.mk [1, 2, 3, 4] false) (ByteString.mk [1, 2, 3, 4] false) = true ∧
    ByteString.eq (ByteString.mk [1, 2, 3, 4] false) (ByteString.mk [1, 2, 3, 4] true) = false ∧
    ByteString.eq (ByteString.mk [1, 2, 1] false) (ByteString.mk [1, 2, 1] true) = true :=
  ⟨(C4_equality (ByteString.mk [1, 2, 3, 4] false)).2.1 [1, 2, 3, 4] false,
   (C4_equality (ByteString.mk [1, 2, 3, 4] false)).2.2.1 (by decide),
   (C4_equality (ByteString.mk [1, 2, 1] false)).2.2.2 (by decide) false true⟩

/-- C5: the bitwise AND/OR/XOR-assign operators are total for operands of any
lengths (no error for `m ≠ n`); each logical position `i < min m n` of the
left operand becomes `a_i op b_i` with both sequences read in their own
logical order, and the left operand's logical positions from `min m n` on are
unchanged. -/
theorem C5_bitwise_assign (a b : ByteString) :
    (a.bitand_assign b).byte_len = a.byte_len ∧
    (a.bitxor_assign b).byte_len = a.byte_len ∧
    (a.bitor_assign b).byte_len = a.byte_len ∧
    (∀ i, i < min a.byte_len b.byte_len →
      ∃ x y, a.logical[i]? = some x ∧ b.logical[i]? = some y ∧
        (a.bitand_assign b).logical[i]? = some (x &&& y) ∧
        (a.bitxor_assign b).logical[i]? = some (x ^^^ y) ∧
        (a.bitor_assign b).logical[i]? = some (x ||| y)) ∧
    (∀ i, min a.byte_len b.byte_len ≤ i →
      (a.bitand_assign b).logical[i]? = a.logical[i]? ∧
      (a.bitxor_assign b).logical[i]? = a.logical[i]? ∧
      (a.bitor_assign b).logical[i]? = a.logical[i]?) := by
  have hA : a.logical.length = a.byte_len := length_logical a
  have hB : b.logical.length = b.byte_len := length_logical b
  have hlen : ∀ f : Nat → Nat → Nat,
      (List.zipWith f a.logical b.logical ++ a.logical.drop b.logical.length).length
        = a.byte_len := by
    intro f
    rw [List.length_append, List.length_zipWith, List.length_drop, hA, hB]
    omega
  refine ⟨?_, ?_, ?_, ?_, ?_⟩
  · unfold ByteString.bitand_assign
    rw [byte_len_setLogical, hlen]
  · unfold ByteString.bitxor_assign
    rw [byte_len_setLogical, hlen]
  · unfold ByteString.bitor_assign
    rw [byte_len_setLogical, hlen]
  · intro i hi
    have hi' : i < min a.logical.length b.logical.length := by omega
    obtain ⟨x, y, hx, hy, hand⟩ := padZip_getElem_lt (· &&& ·) a.logical b.logical i hi'
    obtain ⟨x2, y2, hx2, hy2, hxor⟩ := padZip_getElem_lt (· ^^^ ·) a.logical b.logical i hi'
    obtain ⟨x3, y3, hx3, hy3, hor⟩ := padZip_getElem_lt (· ||| ·) a.logical b.logical i hi'
    rw [hx] at hx2 hx3
    rw [hy] at hy2 hy3
    cases hx2
    cases hy2
    cases hx3
    cases hy3
    refine ⟨x, y, hx, hy, ?_, ?_, ?_⟩
    · unfold ByteString.bitand_assign
      rw [logical_setLogical]
      exact hand
    · unfold ByteString.bitxor_assign
      rw [logical_setLogical]
      exact hxor
    · unfold ByteString.bitor_assign
      rw [logical_setLogical]
      exact hor
  · intro i hi
    have hi' : min a.logical.length b.logical.length ≤ i := by omega
    refine ⟨?_, ?_, ?_⟩
    · unfold ByteString.bitand_assign
      rw [logical_setLogical]
      exact padZip_getElem_ge _ _ _ _ hi'
    · unfold ByteString.bitxor_assign
      rw [logical_setLogical]
      exact padZip_getElem_ge _ _ _ _ hi'
    · unfold ByteString.bitor_assign
      rw [logical_setLogical]
      exact padZip_getElem_ge _ _ _ _ hi'

/-- Witness for C5 with operands of different lengths and flags. -/
theorem C5_bitwise_assign_witness :
    (∃ x y, (ByteString.mk [0xF0, 0x0F, 3] false).logical[0]? = some x ∧
      (ByteString.mk [0xFF, 0x11] true).logical[0]? = some y ∧
      ((ByteString.mk [0xF0, 0x0F, 3] false).bitand_assign
        (ByteString.mk [0xFF, 0x11] true)).logical[0]? = some (x &&& y) ∧
      ((ByteString.mk [0xF0, 0x0F, 3] false).bitxor_assign
        (ByteString.mk [0xFF, 0x11] true)).logical[0]? = some (x ^^^ y) ∧
      ((ByteString.mk [0xF0, 0x0F, 3] false).bitor_assign
        (ByteString.mk [0xFF, 0x11] true)).logical[0]? = some (x ||| y)) ∧
    ((ByteString.mk [0xF0, 0x0F, 3] false).bitand_assign
        (ByteString.mk [0xFF, 0x11] true)).logical[2]?
      = (ByteString.mk [0xF0, 0x0F, 3] false).logical[2]? :=
  ⟨(C5_bitwise_assign (ByteString.mk [0xF0, 0x0F, 3] false)
      (ByteString.mk [0xFF, 0x11] true)).2.2.2.1 0 (by decide),
   ((C5_bitwise_assign (ByteString.mk [0xF0, 0x0F, 3] false)
      (ByteString.mk [0xFF, 0x11] true)).2.2.2.2 2 (by decide)).1⟩

/-- C6: byte-endianness reversal (implemented with the XOR swap over the two
zipped halves) mirrors the buffer — the byte at physical index `i` moves to
index `N - 1 - i`, the middle byte of an odd buffer is untouched — and
applying it twice restores the original buffer. -/
theorem C6_reverse_byte_endianness (s : ByteString) :
    s.reverse_byte_endianness.reverse_byte_endianness = s ∧
    s.reverse_byte_endianness.bytes = s.bytes.reverse ∧
    (∀ i, i < s.byte_len →
      s.reverse_byte_endianness.bytes[i]? = s.bytes[s.byte_len - 1 - i]?) ∧
    (s.byte_len % 2 = 1 →
      s.reverse_byte_endianness.bytes[s.byte_len / 2]?
        = s.bytes[s.byte_len / 2]?) := by
  have hbl : s.byte_len = s.bytes.length := rfl
  refine ⟨?_, ?_, ?_, ?_⟩
  · cases s with
    | mk bytes flag =>
      rw [show (ByteString.mk bytes flag).reverse_byte_endianness
            = ByteString.mk bytes.reverse flag from reverse_byte_endianness_eq _,
        show (ByteString.mk bytes.reverse flag).reverse_byte_endianness
            = ByteString.mk bytes.reverse.reverse flag from reverse_byte_endianness_eq _,
        List.reverse_reverse]
  · rw [reverse_byte_endianness_eq]
  · intro i hi
    rw [reverse_byte_endianness_eq]
    exact List.getElem?_reverse hi
  · intro hodd
    rw [reverse_byte_endianness_eq]
    have hmid : s.byte_len / 2 < s.bytes.length := by omega
    rw [List.getElem?_reverse hmid]
    congr 1
    omega

/-- Witness for C6 on the odd-length buffer `[1,2,3]`. -/
theorem C6_reverse_byte_endianness_witness :
    (ByteString.mk [1, 2, 3] false).reverse_byte_endianness.bytes[0]?
        = (ByteString.mk [1, 2, 3] false).bytes[2]? ∧
    (ByteString.mk [1, 2, 3] false).reverse_byte_endianness.bytes[1]?
        = (ByteString.mk [1, 2, 3] false).bytes[1]? :=
  ⟨by
    have h := (C6_reverse_byte_endianness (ByteString.mk [1, 2, 3] false)).2.2.1 0 (by decide)
    simpa using h,
   by
    have h := (C6_reverse_byte_endianness (ByteString.mk [1, 2, 3] false)).2.2.2 (by decide)
    simpa using h⟩

set_option maxRecDepth 16384 in
/-- C7: the single-byte bit reversal computed by the multiply/mask/modulo
identity (on the value widened to 64 bits, truncated back to 8 bits) is its
own inverse for every byte. -/
theorem C7_reverse_bit_involutive : ∀ x < 256,
    util.reverse_bit_endianness (util.reverse_bit_endianness x) = x := by decide

/-- Witness for C7 at byte `0b10011010`. -/
theorem C7_reverse_bit_involutive_witness :
    util.reverse_bit_endianness (util.reverse_bit_endianness 154) = 154 :=
  C7_reverse_bit_involutive 154 (by decide)

/-- C9: a zero-length buffer is valid — `byte_len` and `bit_len` are 0,
`is_zero` holds, and every mutator (including left shift-assign for every
shift amount) is a no-op that completes. -/
theorem C9_zero_length (f : Bool) (v rhs : Nat) :
    (ByteString.mk [] f).byte_len = 0 ∧
    (ByteString.mk [] f).bit_len = 0 ∧
    (ByteString.mk [] f).is_zero = true ∧
    (ByteString.mk [] f).set_zero = ByteString.mk [] f ∧
    (ByteString.mk [] f).set_bytes_with_value v = ByteString.mk [] f ∧
    (ByteString.mk [] f).reverse_byte_endianness = ByteString.mk [] f ∧
    (ByteString.mk [] f).reverse_bit_endianness = ByteString.mk [] f ∧
    (ByteString.mk [] f).shl_assign rhs = some (ByteString.mk [] f) := by
  refine ⟨rfl, rfl, rfl, rfl, rfl, ?_, rfl, ?_⟩
  · rw [reverse_byte_endianness_eq]
    simp
  · unfold ByteString.shl_assign
    rw [if_pos (by simp [ByteString.is_zero])]

/-- C10: every buffer-view operation leaves `byte_len` and the flag unchanged;
the flag toggle is the only operation that changes the flag, and it changes
nothing else. -/
theorem C10_frame (s t : ByteString) (v c rhs : Nat) :
    (s.set_zero.byte_len = s.byte_len ∧
      s.set_zero.interpret_reverse_endian = s.interpret_reverse_endian) ∧
    ((s.set_bytes_with_value v).byte_len = s.byte_len ∧
      (s.set_bytes_with_value v).interpret_reverse_endian = s.interpret_reverse_endian) ∧
    ((ByteString.not s).byte_len = s.byte_len ∧
      (ByteString.not s).interpret_reverse_endian = s.interpret_reverse_endian) ∧
    ((s.bitand_assign t).byte_len = s.byte_len ∧
      (s.bitand_assign t).interpret_reverse_endian = s.interpret_reverse_endian) ∧
    ((s.bitxor_assign t).byte_len = s.byte_len ∧
      (s.bitxor_assign t).interpret_reverse_endian = s.interpret_reverse_endian) ∧
    ((s.bitor_assign t).byte_len = s.byte_len ∧
      (s.bitor_assign t).interpret_reverse_endian = s.interpret_reverse_endian) ∧
    (s.reverse_byte_endianness.byte_len = s.byte_len ∧
      s.reverse_byte_endianness.interpret_reverse_endian = s.interpret_reverse_endian) ∧
    (s.reverse_bit_endianness.byte_len = s.byte_len ∧
      s.reverse_bit_endianness.interpret_reverse_endian = s.interpret_reverse_endian) ∧
    (∀ t', s.rotl_bytes c = some t' →
      t'.byte_len = s.byte_len ∧ t'.interpret_reverse_endian = s.interpret_reverse_endian) ∧
    (∀ t', s.shl_assign rhs = some t' →
      t'.byte_len = s.byte_len ∧ t'.interpret_reverse_endian = s.interpret_reverse_endian) ∧
    (s.interpretReverseEndian.interpret_reverse_endian = !s.interpret_reverse_endian ∧
      s.interpretReverseEndian.bytes = s.bytes ∧
      s.interpretReverseEndian.byte_len = s.byte_len) := by
  have hbl : s.byte_len = s.bytes.length := rfl
  have hA : s.logical.length = s.byte_len := length_logical s
  have hB : t.logical.length = t.byte_len := length_logical t
  refine ⟨⟨?_, rfl⟩, ⟨?_, rfl⟩, ⟨?_, rfl⟩, ⟨?_, rfl⟩, ⟨?_, rfl⟩, ⟨?_, rfl⟩,
    ⟨?_, ?_⟩, ⟨?_, rfl⟩, ?_, ?_, rfl, rfl, rfl⟩
  · unfold ByteString.set_zero ByteString.set_bytes_with_value util.set_bytes
      ByteString.byte_len
    simp
  · unfold ByteString.set_bytes_with_value util.set_bytes ByteString.byte_len
    simp
  · unfold ByteString.not
    rw [byte_len_setLogical, List.length_map, hA]
  · unfold ByteString.bitand_assign
    rw [byte_len_setLogical, List.length_append, List.length_zipWith, List.length_drop]
    omega
  · unfold ByteString.bitxor_assign
    rw [byte_len_setLogical, List.length_append, List.length_zipWith, List.length_drop]
    omega
  · unfold ByteString.bitor_assign
    rw [byte_len_setLogical, List.length_append, List.length_zipWith, List.length_drop]
    omega
  · rw [reverse_byte_endianness_eq]
    unfold ByteString.byte_len
    simp
  · rw [reverse_byte_endianness_eq]
  · unfold ByteString.reverse_bit_endianness ByteString.byte_len
    simp
  · intro t' h
    exact byte_len_rotl h
  · intro t' h
    exact shl_assign_frame s rhs t' h

/-- Witness for C10, exercising the option-valued conjuncts at concrete
inputs. -/
theorem C10_frame_witness :
    (((ByteString.mk [1, 2, 3] true).rotl_bytes 2 = some (ByteString.mk [3, 1, 2] true)) →
      ((ByteString.mk [3, 1, 2] true).byte_len = (ByteString.mk [1, 2, 3] true).byte_len ∧
        (ByteString.mk [3, 1, 2] true).interpret_reverse_endian
          = (ByteString.mk [1, 2, 3] true).interpret_reverse_endian)) ∧
    ((ByteString.mk [1, 2, 3] true).reverse_byte_endianness.byte_len
      = (ByteString.mk [1, 2, 3] true).byte_len) :=
  ⟨fun h => ((C10_frame (ByteString.mk [1, 2, 3] true) (ByteString.mk [] false) 0 2 5).2.2.2.2.2.2.2.2.1
      (ByteString.mk [3, 1, 2] true)) h,
   (C10_frame (ByteString.mk [1, 2, 3] true) (ByteString.mk [] false) 0 2 5).2.2.2.2.2.2.1.1⟩

/-- C8: over any interleaving of `next` and `next_back` calls the Index
sequence for `[0, N)` never repeats a position and only produces positions
below `N`; once at least `N` calls have been made, every position of `[0, N)`
has been produced exactly once and every further call returns nothing;
a pure `next` traversal yields `0, 1, 2, ...` in ascending mode and
`N-1, N-2, ..., 0` in descending mode. -/
theorem C8_index_permutation (N : Nat) (ops : List Bool) :
    (Index.run (Index.new_iter N) ops).1.Nodup ∧
    (Index.run (Index.new_rev_iter N) ops).1.Nodup ∧
    (∀ x ∈ (Index.run (Index.new_iter N) ops).1, x < N) ∧
    (∀ x ∈ (Index.run (Index.new_rev_iter N) ops).1, x < N) ∧
    (N ≤ ops.length →
      (∀ x, x ∈ (Index.run (Index.new_iter N) ops).1 ↔ x < N) ∧
      (∀ x, x ∈ (Index.run (Index.new_rev_iter N) ops).1 ↔ x < N) ∧
      (∀ ops2, (Index.run (Index.run (Index.new_iter N) ops).2 ops2).1 = []) ∧
      (∀ ops2, (Index.run (Index.run (Index.new_rev_iter N) ops).2 ops2).1 = [])) ∧
    (Index.run (Index.new_iter N) (List.replicate N true)).1 = List.range N ∧
    (Index.run (Index.new_rev_iter N) (List.replicate N true)).1
      = (List.range N).reverse := by
  obtain ⟨f1, f2, f3, f4, f5, f6⟩ := Index.rangeRun_spec ops 0 N (Nat.zero_le N)
  obtain ⟨g1, g2, g3, g4, g5, g6⟩ :=
    Index.rangeRun_spec (ops.map fun o => !o) 0 N (Nat.zero_le N)
  simp only [Index.new_iter, Index.new_rev_iter, Index.run_Iter, Index.run_RevIter]
  refine ⟨f4, g4, ?_, ?_, ?_, ?_, ?_⟩
  · intro x hx
    exact ((f5 x).1 hx).2.1
  · intro x hx
    exact ((g5 x).1 hx).2.1
  · intro hN
    have hf6 : (rangeRun (0, N) ops).2.1 = (rangeRun (0, N) ops).2.2 := f6 (by omega)
    have hg6 : (rangeRun (0, N) (ops.map fun o => !o)).2.1
        = (rangeRun (0, N) (ops.map fun o => !o)).2.2 := by
      apply g6
      rw [List.length_map]
      omega
    refine ⟨?_, ?_, ?_, ?_⟩
    · intro x
      rw [f5 x]
      omega
    · intro x
      rw [g5 x]
      omega
    · intro ops2
      rw [hf6, Index.rangeRun_exhausted]
    · intro ops2
      rw [hg6, Index.rangeRun_exhausted]
  · have h := Index.rangeRun_all_front N 0
    rw [Nat.zero_add] at h
    rw [h, List.range_eq_range']
  · have hmap : (List.replicate N true).map (fun o => !o) = List.replicate N false := by
      rw [List.map_replicate]
      rfl
    rw [hmap]
    have h := Index.rangeRun_all_back N 0
    rw [Nat.zero_add] at h
    rw [h, List.range_eq_range']

/-- Witness for C8 at `N = 3` over an interleaved traversal of 4 calls. -/
theorem C8_index_permutation_witness :
    (∀ x, x ∈ (Index.run (Index.new_iter 3) [true, false, true, true]).1 ↔ x < 3) ∧
    (∀ ops2, (Index.run (Index.run (Index.new_iter 3) [true, false, true, true]).2 ops2).1
      = []) :=
  ⟨((C8_index_permutation 3 [true, false, true, true]).2.2.2.2.1 (by decide)).1,
   ((C8_index_permutation 3 [true, false, true, true]).2.2.2.2.1 (by decide)).2.2.1⟩

/-- Witness for C3 amended, at an in-range rotation and an arbitrary shift. -/
theorem C3_totality_witness :
    ((ByteString.mk [1, 2, 3] false).rotl_bytes 2).isSome = true ∧
    ((ByteString.mk [1, 2, 3] false).shl_assign 11).isSome = true :=
  ⟨(C3_totality (ByteString.mk [1, 2, 3] false) 2 11).1 (by decide),
   (C3_totality (ByteString.mk [1, 2, 3] false) 2 11).2.2⟩

end Rebite
